import Mathlib

set_option autoImplicit false

/-!
Shallow embedding of the memo-cli command store (src/main.rs) and proofs of
its specified properties.

The sqlite table `memos (id INTEGER PRIMARY KEY AUTOINCREMENT, cmd TEXT,
created_at INTEGER)` is modelled as a `MemoState`: a list of entries kept in
insertion order (ascending `id`, matching the table's scan order — sqlite
AUTOINCREMENT assigns strictly increasing ids starting at 1, never reused)
together with the next id to assign.  `ORDER BY id DESC` reads are the
reverse of that list.  Timestamps are opaque `Nat` arguments supplied by the
caller (the Rust code reads the wall clock).  Rust strings are Lean
`String`s; `str::to_lowercase` / `char`-class tests are modelled on the
ASCII range (`Char.toLower`, alphanumeric/underscore), which coincides with
Rust on the ASCII command texts involved.
-/

/-- Constant `DB_CAP` from src/main.rs line 10. -/
def DB_CAP : Nat := 200

/-- Constant `DEFAULT_LIMIT` from src/main.rs line 11. -/
def DEFAULT_LIMIT : Nat := 10

/-- One row of the `memos` table. -/
structure MemoEntry where
  id : Nat
  cmd : String
  created_at : Nat
  deriving DecidableEq, Repr

/-- The store: rows in ascending-id (insertion) order plus the next
AUTOINCREMENT id. -/
structure MemoState where
  nextId : Nat
  entries : List MemoEntry
  deriving DecidableEq, Repr

/-- A freshly created table: no rows, AUTOINCREMENT starts at 1. -/
def initState : MemoState := ⟨1, []⟩

/-- Query `SELECT COUNT(*) FROM memos` (src/main.rs line 43). -/
def countMemos (s : MemoState) : Nat := s.entries.length

/-- Function `enforce_cap` (src/main.rs lines 42-54): if the count exceeds `DB_CAP`,
delete `count - DB_CAP` rows, chosen as the smallest ids
(`SELECT id FROM memos ORDER BY id ASC LIMIT to_delete`).  On the
ascending-id list those are exactly the first `count - DB_CAP` elements. -/
def enforce_cap (s : MemoState) : MemoState :=
  if s.entries.length ≤ DB_CAP then s
  else { s with entries := s.entries.drop (s.entries.length - DB_CAP) }

/-- Function `insert_cmd` (src/main.rs lines 56-67): append a row with the next id and
the supplied timestamp, then `enforce_cap`. -/
def insert_cmd (s : MemoState) (cmd : String) (now : Nat) : MemoState :=
  enforce_cap { nextId := s.nextId + 1, entries := s.entries ++ [⟨s.nextId, cmd, now⟩] }

/-- The `cmd` column read in `SELECT cmd FROM memos ORDER BY id DESC` order. -/
def descCmds (s : MemoState) : List String := s.entries.reverse.map MemoEntry.cmd

/-- Function `last_saved_cmd` (src/main.rs lines 69-76):
`SELECT cmd FROM memos ORDER BY id DESC LIMIT 1`, `None` when empty. -/
def last_saved_cmd (s : MemoState) : Option String := (descCmds s).head?

/-- Per-character lowercasing, the ASCII model of Rust `str::to_lowercase`. -/
def strLower (s : String) : String := ⟨s.data.map Char.toLower⟩

/-- Test that a needle heads a hay list, written out over characters (kept
self-contained). -/
def leadsList : List Char → List Char → Bool
  | [], _ => true
  | _ :: _, [] => false
  | a :: as, b :: bs => a == b && leadsList as bs

/-- Rust `str::contains(&str)`: substring containment, over characters. -/
def containsSub (hay needle : String) : Bool :=
  (List.range (hay.data.length + 1)).any fun i => leadsList needle.data (hay.data.drop i)

/-- The per-row filter test of `list_cmds` (src/main.rs lines 87-90):
the query has already been lowercased once outside the loop; each row is
lowercased and tested for substring containment.  `none` matches everything. -/
def matchedQ (q : Option String) (cmd : String) : Bool :=
  match q with
  | some qq => containsSub (strLower cmd) qq
  | none => true

/-- The row loop of `list_cmds` (src/main.rs lines 85-98): `idx` counts every
row scanned; a matching row is pushed as `(idx, cmd)`; the loop breaks once
`out.len() >= limit` — checked only after a push. -/
def listLoop (q : Option String) (limit : Nat) :
    List String → Nat → List (Nat × String) → List (Nat × String)
  | [], _, out => out
  | cmd :: rest, idx, out =>
    if matchedQ q cmd then
      let out' := out ++ [(idx, cmd)]
      if limit ≤ out'.length then out'
      else listLoop q limit rest (idx + 1) out'
    else listLoop q limit rest (idx + 1) out

/-- Function `list_cmds` (src/main.rs lines 78-100). -/
def list_cmds (s : MemoState) (limit : Nat) (query : Option String) :
    List (Nat × String) :=
  listLoop (query.map strLower) limit (descCmds s) 1 []

/-- Reduction of an integer into the i64 range `[-2^63, 2^63)` by
two's-complement wraparound.  Applied to a `Nat` below `2^64` it is the Rust
cast `as i64`; applied after a subtraction it is i64 wrapping arithmetic
(release-mode overflow semantics). -/
def wrapI64 (z : Int) : Int := (z + 2 ^ 63) % 2 ^ 64 - 2 ^ 63

/-- Function `cmd_by_index` (src/main.rs lines 102-112): `None` for `index < 1`,
otherwise `SELECT cmd ORDER BY id DESC LIMIT 1 OFFSET index - 1`.  The Rust
parameter is a `usize` (here `Nat`, with values below `2^64` reachable) and
the OFFSET is computed as `index as i64 - 1`: for `index ≥ 2^63` the cast
wraps negative.  SQLite treats a negative OFFSET as 0, which `Int.toNat`
models exactly (negative integers clamp to 0), so such an index reads the
most recent row instead of reporting not-found. -/
def cmd_by_index (s : MemoState) (index : Nat) : Option String :=
  if index < 1 then none
  else (descCmds s)[(wrapI64 (wrapI64 (index : Int) - 1)).toNat]?

/-- The dedup-then-insert step shared by the auto-save path
(src/main.rs lines 267-273) and `save` without arguments (lines 310-320):
insert unless the most recent entry's cmd equals the candidate exactly. -/
def maybe_save (s : MemoState) (candidate : String) (now : Nat) : MemoState :=
  if last_saved_cmd s = some candidate then s else insert_cmd s candidate now

/-- Command `save` with operator-supplied arguments (src/main.rs lines 302-309):
the joined argument text is passed straight to `insert_cmd`. -/
def save_explicit (s : MemoState) (text : String) (now : Nat) : MemoState :=
  insert_cmd s text now

/-- Regex word character `\w` (ASCII range): `[0-9A-Za-z_]`. -/
def isWordChar (c : Char) : Bool := c.isAlphanum || c == '_'

/-- Regex whitespace `\s` (ASCII range): `[ \t\n\x0B\x0C\r]`; also the
character class Rust `str::trim` strips on ASCII text. -/
def isSpaceChar (c : Char) : Bool :=
  c == ' ' || c == '\t' || c == '\n' || c == '\x0b' || c == '\x0c' || c == '\r'

/-- True when position `j` of `s` is absent or holds a non-word character;
regex `\b` next to a word character demands exactly this of the adjacent
position. -/
def noWordAt (s : List Char) (j : Nat) : Bool :=
  match s[j]? with
  | none => true
  | some c => !isWordChar c

/-- Match of `\b<w>\b` (for a word `w` made of word characters) starting at
position `i` of `s`. -/
def matchWordAt (w s : List Char) (i : Nat) : Bool :=
  leadsList w (s.drop i) && (decide (i = 0) || noWordAt s (i - 1)) && noWordAt s (i + w.length)

/-- Whole-string match of `\b<w>\b` anywhere in `s`. -/
def matchesWord (w s : List Char) : Bool :=
  (List.range (s.length + 1)).any fun i => matchWordAt w s i

/-- Match of `\b<w>` (left boundary only — the `\bmkfs` pattern) at `i`. -/
def matchStemAt (w s : List Char) (i : Nat) : Bool :=
  leadsList w (s.drop i) && (decide (i = 0) || noWordAt s (i - 1))

/-- Whole-string match of `\b<w>` anywhere in `s`. -/
def matchesStem (w s : List Char) : Bool :=
  (List.range (s.length + 1)).any fun i => matchStemAt w s i

/-- Whole-string match of `\|\s*sh\b`: a literal `|`, a run of whitespace,
then `sh` at a right word boundary. -/
def matchesPipeSh (s : List Char) : Bool :=
  (List.range (s.length + 1)).any fun i =>
    s[i]? == some '|' &&
      (List.range (s.length + 1)).any fun j =>
        ((s.drop (i + 1)).take j).all isSpaceChar &&
          leadsList ['s', 'h'] (s.drop (i + 1 + j)) &&
          noWordAt s (i + 1 + j + 2)

/-- Function `is_dangerous` (src/main.rs lines 156-172): the eight regex patterns
`\brm\b`, `\bsudo\b`, `\bdd\b`, `\bmkfs`, `\bshutdown\b`, `\breboot\b`,
`\bpoweroff\b`, `\|\s*sh\b`, each tested with `Regex::is_match`. -/
def is_dangerous (cmd : String) : Bool :=
  matchesWord "rm".data cmd.data || matchesWord "sudo".data cmd.data ||
    matchesWord "dd".data cmd.data || matchesStem "mkfs".data cmd.data ||
    matchesWord "shutdown".data cmd.data || matchesWord "reboot".data cmd.data ||
    matchesWord "poweroff".data cmd.data || matchesPipeSh cmd.data

/-- Rust `str::trim` over characters (ASCII whitespace model). -/
def trimChars (l : List Char) : List Char :=
  ((l.dropWhile isSpaceChar).reverse.dropWhile isSpaceChar).reverse

/-- Rust `str::trim` on a `String`. -/
def strTrim (s : String) : String := ⟨trimChars s.data⟩

/-- Function `confirm_run` (src/main.rs lines 174-182), with the stdin read
modelled
as an `Option String`: `none` is a failed `read_line` (declined); `some line`
is the text read (EOF yields `some ""`), accepted exactly when its trimmed
lowercase form is `y` or `yes`. -/
def confirmAccepts (input : Option String) : Bool :=
  match input with
  | none => false
  | some line =>
    let t := strLower (strTrim line)
    t == "y" || t == "yes"

/-- Terminal states of the `run <index>` branch (src/main.rs lines 341-359). -/
inductive RunOutcome where
  | notFound : RunOutcome
  | declined : RunOutcome
  | executed : String → RunOutcome
  deriving DecidableEq, Repr

/-- The `run` branch of `main` after argument parsing (src/main.rs lines
346-358): resolve the index; on failure report not-found; if the resolved
command is dangerous and the confirmation gate declines, abort; otherwise
hand the command to `sh -c`.  `confirm_run` is consulted only in the
dangerous case (Rust `&&` short-circuits). -/
def runBranch (s : MemoState) (index : Nat) (input : Option String) : RunOutcome :=
  match cmd_by_index s index with
  | none => RunOutcome.notFound
  | some cmd =>
    if is_dangerous cmd && !confirmAccepts input then RunOutcome.declined
    else RunOutcome.executed cmd

/-- The process exit code produced for each `run` outcome (src/main.rs lines
349-358): 1 for not-found and decline; for an executed command,
`status.ok().and_then(code).unwrap_or(1)`, modelled by the optional code of
the child process. -/
def runExitCode (r : RunOutcome) (childCode : Option Nat) : Nat :=
  match r with
  | RunOutcome.notFound => 1
  | RunOutcome.declined => 1
  | RunOutcome.executed _ => childCode.getD 1

/-!
Spec-side definitions.  These follow the wording of the specification, to be
compared with the code-side definitions above.
-/

/-- Pair every element with its 1-based (when started at `i = 1`) position. -/
def indexFrom {α : Type} (i : Nat) : List α → List (Nat × α)
  | [] => []
  | a :: as => (i, a) :: indexFrom (i + 1) as

/-- The spec's `list`: index every entry of the full descending order,
keep the matching ones, stop after `limit` matching pairs. -/
def listSpec (s : MemoState) (limit : Nat) (query : Option String) :
    List (Nat × String) :=
  ((indexFrom 1 (descCmds s)).filter fun p => matchedQ (query.map strLower) p.2).take limit

/-- A sequence of inserts: `applyInserts s L` performs `insert_cmd` for each
`(cmd, now)` pair of `L` in order. -/
def applyInserts (s : MemoState) (L : List (String × Nat)) : MemoState :=
  L.foldl (fun st p => insert_cmd st p.1 p.2) s

/-- The untrimmed log of a sequence of inserts started on the fresh store:
entry `k` (1-based) gets id `k`. -/
def fullLogFrom (i : Nat) : List (String × Nat) → List MemoEntry
  | [] => []
  | (c, t) :: rest => ⟨i, c, t⟩ :: fullLogFrom (i + 1) rest

/-- The untrimmed log with ids from 1. -/
def fullLog (L : List (String × Nat)) : List MemoEntry := fullLogFrom 1 L

/-- The indexed matching pairs of a row list, starting at index `idx`: the
spec's "assign an index to every entry, emit the matching ones". -/
def matchedPairs (q : Option String) (idx : Nat) (rows : List String) :
    List (Nat × String) :=
  (indexFrom idx rows).filter fun p => matchedQ q p.2

/-- The store of the spec's worked example: entries, by recency,
`["git push", "ls", "git status"]`. -/
def gitExample : MemoState :=
  insert_cmd (insert_cmd (insert_cmd initState "git status" 0) "ls" 1) "git push" 2

/-- Left word-boundary condition of a decomposition `s = pre ++ w ++ post`
(for `w` starting with a word character): `pre` ends at the string edge or
in a non-word character. -/
def NonWordEdgeL (pre : List Char) : Prop :=
  pre = [] ∨ ∃ p c, pre = p ++ [c] ∧ isWordChar c = false

/-- Right word-boundary condition: `post` starts at the string edge or with
a non-word character. -/
def NonWordEdgeR (post : List Char) : Prop :=
  post = [] ∨ ∃ c p, post = c :: p ∧ isWordChar c = false

/-- The spec's "standalone word `w`": `w` occurs in `s` with word boundaries
on both sides. -/
def WordOccurs (w s : List Char) : Prop :=
  ∃ pre post, s = pre ++ w ++ post ∧ NonWordEdgeL pre ∧ NonWordEdgeR post

/-- The spec's "a token starting with `w`": `w` occurs with a word boundary
on its left only. -/
def StemOccurs (w s : List Char) : Prop :=
  ∃ pre post, s = pre ++ w ++ post ∧ NonWordEdgeL pre

/-- The spec's "a pipe into `sh`": a `|`, optional whitespace, then the word
`sh` closed by a word boundary. -/
def PipeShOccurs (s : List Char) : Prop :=
  ∃ pre ws post, s = pre ++ '|' :: (ws ++ 's' :: 'h' :: post) ∧
    (∀ c ∈ ws, isSpaceChar c = true) ∧ NonWordEdgeR post

/-- The spec's danger classification: one of the eight fixed word-boundary
patterns occurs in the command text. -/
def DangerousSpec (cmd : String) : Prop :=
  WordOccurs "rm".data cmd.data ∨ WordOccurs "sudo".data cmd.data ∨
    WordOccurs "dd".data cmd.data ∨ StemOccurs "mkfs".data cmd.data ∨
    WordOccurs "shutdown".data cmd.data ∨ WordOccurs "reboot".data cmd.data ∨
    WordOccurs "poweroff".data cmd.data ∨ PipeShOccurs cmd.data

/-!
Helper lemmas about the store operations.
-/

lemma DB_CAP_eq : DB_CAP = 200 := rfl

lemma enforce_cap_entries (s : MemoState) :
    (enforce_cap s).entries = s.entries.drop (s.entries.length - DB_CAP) := by
  unfold enforce_cap
  split
  · next h => rw [Nat.sub_eq_zero_of_le h, List.drop_zero]
  · simp

lemma enforce_cap_nextId (s : MemoState) : (enforce_cap s).nextId = s.nextId := by
  unfold enforce_cap
  split <;> simp

lemma insert_cmd_entries (s : MemoState) (c : String) (t : Nat) :
    (insert_cmd s c t).entries
      = s.entries.drop (s.entries.length + 1 - DB_CAP) ++ [⟨s.nextId, c, t⟩] := by
  unfold insert_cmd
  rw [enforce_cap_entries]
  simp only [List.length_append, List.length_cons, List.length_nil, Nat.zero_add]
  rw [List.drop_append_of_le_length (by rw [DB_CAP_eq]; omega)]

lemma insert_cmd_nextId (s : MemoState) (c : String) (t : Nat) :
    (insert_cmd s c t).nextId = s.nextId + 1 := by
  unfold insert_cmd
  rw [enforce_cap_nextId]

lemma insert_cmd_length (s : MemoState) (c : String) (t : Nat) :
    (insert_cmd s c t).entries.length = min (s.entries.length + 1) DB_CAP := by
  rw [insert_cmd_entries]
  simp only [List.length_append, List.length_drop, List.length_cons, List.length_nil,
    Nat.zero_add]
  rw [DB_CAP_eq]
  omega

lemma descCmds_insert (s : MemoState) (c : String) (t : Nat) :
    descCmds (insert_cmd s c t)
      = c :: (s.entries.drop (s.entries.length + 1 - DB_CAP)).reverse.map MemoEntry.cmd := by
  unfold descCmds
  rw [insert_cmd_entries]
  simp [List.reverse_append]

lemma last_saved_insert (s : MemoState) (c : String) (t : Nat) :
    last_saved_cmd (insert_cmd s c t) = some c := by
  unfold last_saved_cmd
  rw [descCmds_insert]
  rfl

lemma descCmds_length (s : MemoState) : (descCmds s).length = countMemos s := by
  simp [descCmds, countMemos]

lemma wrapI64_small (z : Int) (h0 : 0 ≤ z) (h1 : z < 2 ^ 63) : wrapI64 z = z := by
  unfold wrapI64
  omega

lemma cmd_by_index_small (s : MemoState) (k : Nat) (h1 : 1 ≤ k) (h2 : k < 2 ^ 63) :
    cmd_by_index s k = (descCmds s)[k - 1]? := by
  unfold cmd_by_index
  rw [if_neg (by omega)]
  rw [wrapI64_small (k : Int) (by omega) (by omega)]
  rw [wrapI64_small ((k : Int) - 1) (by omega) (by omega)]
  have htn : ((k : Int) - 1).toNat = k - 1 := by omega
  rw [htn]

lemma fullLogFrom_append (p : String × Nat) :
    ∀ (L : List (String × Nat)) (i : Nat),
      fullLogFrom i (L ++ [p]) = fullLogFrom i L ++ [⟨i + L.length, p.1, p.2⟩] := by
  intro L
  induction L with
  | nil => intro i; simp [fullLogFrom]
  | cons q rest ih =>
    intro i
    obtain ⟨a, b⟩ := q
    have harith : i + 1 + rest.length = i + (rest.length + 1) := by omega
    simp only [List.cons_append, fullLogFrom, List.append_eq, ih (i + 1), List.length_cons,
      harith]

lemma fullLogFrom_length : ∀ (L : List (String × Nat)) (i : Nat),
    (fullLogFrom i L).length = L.length := by
  intro L
  induction L with
  | nil => intro i; rfl
  | cons q rest ih =>
    intro i
    obtain ⟨a, b⟩ := q
    simp [fullLogFrom, ih (i + 1)]

lemma applyInserts_append (s : MemoState) (L : List (String × Nat)) (p : String × Nat) :
    applyInserts s (L ++ [p]) = insert_cmd (applyInserts s L) p.1 p.2 := by
  simp [applyInserts, List.foldl_append]

lemma applyInserts_spec (L : List (String × Nat)) :
    (applyInserts initState L).nextId = L.length + 1 ∧
    (applyInserts initState L).entries = (fullLog L).drop (L.length - DB_CAP) := by
  induction L using List.reverseRecOn with
  | nil => exact ⟨rfl, rfl⟩
  | append_singleton L p ih =>
    obtain ⟨ihn, ihe⟩ := ih
    rw [applyInserts_append]
    have hflen : (fullLog L).length = L.length := fullLogFrom_length L 1
    have helen : (applyInserts initState L).entries.length = L.length - (L.length - DB_CAP) := by
      rw [ihe, List.length_drop, hflen]
    constructor
    · rw [insert_cmd_nextId, ihn]
      simp
    · rw [insert_cmd_entries, ihe, ihn, List.length_drop, hflen, List.drop_drop]
      unfold fullLog
      rw [fullLogFrom_append,
        List.drop_append_of_le_length
          (by
            simp only [fullLogFrom_length, List.length_append, List.length_cons,
              List.length_nil, DB_CAP_eq]
            omega)]
      have h2 : (1 : Nat) + L.length = L.length + 1 := by omega
      rw [h2]
      have h1 : L.length - DB_CAP + (L.length - (L.length - DB_CAP) + 1 - DB_CAP)
          = (L ++ [p]).length - DB_CAP := by
        simp only [List.length_append, List.length_cons, List.length_nil, DB_CAP_eq]
        omega
      rw [h1]

/-!
Claim C1.
-/

/-- C1 (confirmed).  Capacity invariant: for every sequence of inserts
applied to the fresh store (and hence after any insert of any sequence —
every prefix is itself such a sequence), the store holds
`min (number of inserts) DB_CAP ≤ DB_CAP` entries, and the retained entries
are exactly the suffix of the untrimmed insertion log past the first
`N - DB_CAP` entries: the most recently inserted ones, which carry the
largest ids (the log assigns ids `1..N` in order).  Trimming thus runs
synchronously in every insert and removes only the oldest (smallest-id)
entries. -/
theorem c1_capacity_invariant (L : List (String × Nat)) :
    (applyInserts initState L).entries.length ≤ DB_CAP ∧
    (applyInserts initState L).entries.length = min L.length DB_CAP ∧
    (applyInserts initState L).entries = (fullLog L).drop (L.length - DB_CAP) := by
  obtain ⟨hn, he⟩ := applyInserts_spec L
  have hflen : (fullLog L).length = L.length := fullLogFrom_length L 1
  have hlen : (applyInserts initState L).entries.length = L.length - (L.length - DB_CAP) := by
    rw [he, List.length_drop, hflen]
  refine ⟨?_, ?_, he⟩ <;> rw [hlen] <;> omega

/-!
Claim C9.
-/

/-- C9 (confirmed).  Round-trip: for every store state and every command
string, inserting the command and then resolving index 1 returns exactly the
inserted text (the newly appended entry survives trimming because the cap is
positive, and it is the head of the descending order). -/
theorem c9_round_trip (s : MemoState) (cmd : String) (now : Nat) :
    cmd_by_index (insert_cmd s cmd now) 1 = some cmd := by
  rw [cmd_by_index_small (insert_cmd s cmd now) 1 (le_refl 1) (by norm_num)]
  rw [descCmds_insert]
  simp

/-!
Claim C4.
-/

/-- C4 counterexample.  The claim says an explicit save whose text equals the
current most recent entry's cmd does not insert; on the code, with the store
holding exactly one entry `"ls"` (which is the most recent), an explicit save
of `"ls"` still inserts: the store grows to 2 entries. -/
theorem c4_explicit_save_cex :
    last_saved_cmd (insert_cmd initState "ls" 0) = some "ls" ∧
    (save_explicit (insert_cmd initState "ls" 0) "ls" 1).entries.length = 2 := by
  constructor
  · exact last_saved_insert initState "ls" 0
  · decide

/-- C4 (corrected).  An explicit save request with operator-supplied text
does not go through the equality-against-most-recent check: it calls the
insert operation unconditionally, so a new entry is appended (and becomes
the most recent) even when the text equals the current most recent entry's
cmd; below the cap the entry count always grows by one. -/
theorem c4_explicit_save_always_inserts (s : MemoState) (text : String) (now : Nat) :
    save_explicit s text now = insert_cmd s text now ∧
    last_saved_cmd (save_explicit s text now) = some text ∧
    (s.entries.length < DB_CAP →
      (save_explicit s text now).entries.length = s.entries.length + 1) := by
  refine ⟨rfl, last_saved_insert s text now, fun h => ?_⟩
  unfold save_explicit
  rw [insert_cmd_length]
  omega

/-- Witness for C4: the amended claim applied at the counterexample store. -/
theorem c4_explicit_save_always_inserts_witness :
    (insert_cmd initState "ls" 0).entries.length < DB_CAP ∧
    (save_explicit (insert_cmd initState "ls" 0) "ls" 1).entries.length
      = (insert_cmd initState "ls" 0).entries.length + 1 :=
  ⟨by decide, (c4_explicit_save_always_inserts (insert_cmd initState "ls" 0) "ls" 1).2.2
    (by decide)⟩

/-!
Claim C5.
-/

/-- C5 (confirmed).  Dedup-on-save compares only against the single most
recent entry: `maybe_save` leaves the store untouched exactly when the most
recent entry's cmd equals the candidate byte-for-byte, and otherwise
performs the insert.  Concretely, saving `"ls -la"` twice in a row stores
one entry, while saving `"ls -la"`, `"pwd"`, `"ls -la"` stores three
entries, two of which carry that text. -/
theorem c5_dedup_on_save (s : MemoState) (candidate : String) (now : Nat) :
    (maybe_save s candidate now = s ↔ last_saved_cmd s = some candidate) ∧
    (last_saved_cmd s ≠ some candidate →
      maybe_save s candidate now = insert_cmd s candidate now) ∧
    (maybe_save (maybe_save initState "ls -la" 0) "ls -la" 1).entries.length = 1 ∧
    ((maybe_save (maybe_save (maybe_save initState "ls -la" 0) "pwd" 1) "ls -la" 2).entries.countP
      fun e => e.cmd == "ls -la") = 2 ∧
    (maybe_save (maybe_save (maybe_save initState "ls -la" 0) "pwd" 1) "ls -la" 2).entries.length
      = 3 := by
  refine ⟨⟨?_, ?_⟩, fun h => by rw [maybe_save, if_neg h], by decide, by decide, by decide⟩
  · intro heq
    by_contra hne
    rw [maybe_save, if_neg hne] at heq
    have hid : (insert_cmd s candidate now).nextId = s.nextId := by rw [heq]
    rw [insert_cmd_nextId] at hid
    omega
  · intro h
    rw [maybe_save, if_pos h]

/-- Witness for C5: a candidate differing from the most recent entry is
inserted. -/
theorem c5_dedup_on_save_witness :
    last_saved_cmd initState ≠ some "pwd" ∧
    maybe_save initState "pwd" 0 = insert_cmd initState "pwd" 0 :=
  ⟨by decide, (c5_dedup_on_save initState "pwd" 0).2.1 (by decide)⟩

/-!
Claim C8.
-/

/-- C8 (code bug).  The claim says index resolution returns `none` for every
index greater than the current entry count; the code violates it on the
usize wrap range.  Failing input: a store holding one entry `"a"` and the
index `2^63 + 1` (a value `parse::<usize>()` accepts): the OFFSET is
computed as `(2^63 + 1) as i64 - 1 = -2^63`, SQLite treats the negative
OFFSET as 0, and the most recent entry is returned instead of not-found. -/
theorem c8_wrap_code_bug :
    countMemos (insert_cmd initState "a" 0) = 1 ∧
    countMemos (insert_cmd initState "a" 0) < 2 ^ 63 + 1 ∧
    cmd_by_index (insert_cmd initState "a" 0) (2 ^ 63 + 1) = some "a" := by
  refine ⟨by decide, by decide, ?_⟩
  decide


/-!
Helper lemmas about the listing loop.
-/

lemma matchedPairs_cons (q : Option String) (idx : Nat) (c : String) (rest : List String) :
    matchedPairs q idx (c :: rest)
      = if matchedQ q c then (idx, c) :: matchedPairs q (idx + 1) rest
        else matchedPairs q (idx + 1) rest := by
  simp only [matchedPairs, indexFrom, List.filter_cons]

lemma listLoop_go (q : Option String) (limit : Nat) :
    ∀ (rows : List String) (idx : Nat) (out : List (Nat × String)), out.length < limit →
      listLoop q limit rows idx out
        = out ++ (matchedPairs q idx rows).take (limit - out.length) := by
  intro rows
  induction rows with
  | nil => intro idx out h; simp [listLoop, matchedPairs, indexFrom]
  | cons c rest ih =>
    intro idx out h
    rw [matchedPairs_cons]
    simp only [listLoop]
    by_cases hm : matchedQ q c
    · rw [if_pos hm, if_pos hm]
      by_cases hstop : limit ≤ (out ++ [(idx, c)]).length
      · rw [if_pos hstop]
        simp only [List.length_append, List.length_cons, List.length_nil] at hstop
        have h1 : limit - out.length = 0 + 1 := by omega
        rw [h1, List.take_succ_cons, List.take_zero]
      · rw [if_neg hstop]
        simp only [List.length_append, List.length_cons, List.length_nil] at hstop
        have hlt : (out ++ [(idx, c)]).length < limit := by
          simp only [List.length_append, List.length_cons, List.length_nil]
          omega
        rw [ih (idx + 1) (out ++ [(idx, c)]) hlt]
        have h2 : limit - out.length = (limit - (out ++ [(idx, c)]).length) + 1 := by
          simp only [List.length_append, List.length_cons, List.length_nil]
          omega
        rw [h2, List.take_succ_cons, List.append_assoc]
        rfl
    · rw [if_neg hm, if_neg hm]
      exact ih (idx + 1) out h

lemma listLoop_zero (q : Option String) :
    ∀ (rows : List String) (idx : Nat),
      listLoop q 0 rows idx [] = (matchedPairs q idx rows).take 1 := by
  intro rows
  induction rows with
  | nil => intro idx; simp [listLoop, matchedPairs, indexFrom]
  | cons c rest ih =>
    intro idx
    rw [matchedPairs_cons]
    simp only [listLoop]
    by_cases hm : matchedQ q c
    · rw [if_pos hm, if_pos hm, if_pos (by simp)]
      rfl
    · rw [if_neg hm, if_neg hm]
      exact ih (idx + 1)

lemma list_cmds_limit_pos (s : MemoState) (limit : Nat) (query : Option String)
    (h : 1 ≤ limit) :
    list_cmds s limit query = listSpec s limit query := by
  rw [list_cmds, listLoop_go (query.map strLower) limit (descCmds s) 1 [] (by simpa using h)]
  simp [listSpec, matchedPairs]

lemma list_cmds_zero_eq (s : MemoState) (query : Option String) :
    list_cmds s 0 query = listSpec s 1 query := by
  rw [list_cmds, listLoop_zero]
  simp [listSpec, matchedPairs]

lemma indexFrom_getElem? {α : Type} :
    ∀ (l : List α) (i n : Nat), (indexFrom i l)[n]? = l[n]?.map fun a => (i + n, a) := by
  intro l
  induction l with
  | nil => intro i n; simp [indexFrom]
  | cons a as ih =>
    intro i n
    cases n with
    | zero => simp [indexFrom]
    | succ m =>
      have harith : i + 1 + m = i + (m + 1) := by omega
      simp only [indexFrom, List.getElem?_cons_succ, ih (i + 1) m, harith]

lemma indexFrom_mem {α : Type} (c : α) :
    ∀ (rows : List α) (idx : Nat), c ∈ rows → ∃ i, (i, c) ∈ indexFrom idx rows := by
  intro rows
  induction rows with
  | nil => intro idx h; cases h
  | cons a as ih =>
    intro idx h
    rcases List.mem_cons.mp h with h | h
    · exact ⟨idx, by simp [indexFrom, h]⟩
    · obtain ⟨i, hi⟩ := ih (idx + 1) h
      exact ⟨i, by simp [indexFrom, Or.inr hi]⟩

/-!
Claim C2.
-/

/-- C2 counterexample.  The claim says `list` stops after `limit` matching
pairs for every store state and limit; at `limit = 0` with one stored entry
and no filter, the code emits one pair (the limit check runs only after a
push), while stopping after 0 matching pairs — formalized by `listSpec`,
which takes `limit` of the matching pairs — yields the empty sequence. -/
theorem c2_filtered_listing_cex :
    list_cmds (insert_cmd initState "a" 0) 0 none = [(1, "a")] ∧
    listSpec (insert_cmd initState "a" 0) 0 none = [] := by
  constructor
  · decide
  · decide

/-- C2 (corrected).  For every store state and every `limit ≥ 1`, the
listing emitted by the code equals the spec's list: index every entry of the
full descending order (counting non-matching entries too), keep exactly the
pairs whose entry matches the filter (absent filter, or case-insensitive
substring of the cmd), and cut after `limit` matching pairs.  The spec's
worked example holds: entries by recency `["git push", "ls", "git status"]`
with filter `"git"` yield `[(1, "git push"), (3, "git status")]`, index 2
being skipped, not renumbered.  (Only the `limit = 0` edge deviates; see the
counterexample and C10.) -/
theorem c2_filtered_listing :
    (∀ (s : MemoState) (limit : Nat) (query : Option String), 1 ≤ limit →
      list_cmds s limit query = listSpec s limit query) ∧
    list_cmds gitExample 10 (some "git") = [(1, "git push"), (3, "git status")] ∧
    listSpec gitExample 10 (some "git") = [(1, "git push"), (3, "git status")] := by
  refine ⟨fun s limit query h => list_cmds_limit_pos s limit query h, ?_, ?_⟩
  · decide
  · decide

/-- Witness for C2: the equality applied at a concrete store and limit 1. -/
theorem c2_filtered_listing_witness :
    1 ≤ 1 ∧
    list_cmds (insert_cmd initState "b" 0) 1 none
      = listSpec (insert_cmd initState "b" 0) 1 none :=
  ⟨by decide, c2_filtered_listing.1 (insert_cmd initState "b" 0) 1 none (by decide)⟩

/-!
Claim C3.
-/

/-- C3 (confirmed).  Index agreement within one read: for a fixed store
state and every valid `k` — `1 ≤ k ≤ count`, the indices that denote an
entry; the store's capacity invariant keeps `count ≤ DB_CAP`, far below the
usize wrap range — with `k ≤ limit`, `cmd_by_index k` returns `c` exactly
when the k-th pair yielded by the unfiltered listing is `(k, c)`. -/
theorem c3_index_agreement (s : MemoState) (k limit : Nat) (c : String)
    (hk : 1 ≤ k) (hkc : k ≤ countMemos s) (hcap : countMemos s ≤ DB_CAP)
    (hkl : k ≤ limit) :
    cmd_by_index s k = some c ↔ (list_cmds s limit none)[k - 1]? = some (k, c) := by
  rw [list_cmds_limit_pos s limit none (le_trans hk hkl)]
  simp only [listSpec, Option.map_none', matchedQ, List.filter_true]
  rw [List.getElem?_take_of_lt (by omega), indexFrom_getElem?]
  rw [cmd_by_index_small s k hk (by rw [DB_CAP_eq] at hcap; omega)]
  have hidx : 1 + (k - 1) = k := by omega
  rw [hidx]
  cases h : (descCmds s)[k - 1]? with
  | none => simp
  | some d => simp

/-- Witness for C3: agreement at index 1 of a one-entry store. -/
theorem c3_index_agreement_witness :
    (1 ≤ 1 ∧ 1 ≤ countMemos (insert_cmd initState "a" 0) ∧
      countMemos (insert_cmd initState "a" 0) ≤ DB_CAP ∧ 1 ≤ 1) ∧
    (cmd_by_index (insert_cmd initState "a" 0) 1 = some "a" ↔
      (list_cmds (insert_cmd initState "a" 0) 1 none)[1 - 1]? = some (1, "a")) :=
  ⟨⟨le_refl 1, by decide, by decide, le_refl 1⟩,
    c3_index_agreement (insert_cmd initState "a" 0) 1 1 "a" (by decide) (by decide)
      (by decide) (by decide)⟩

/-!
Claim C10.
-/

/-- C10 (confirmed).  Implicit limit-zero edge case: whenever some entry of
the store matches the filter, `list_cmds` with `limit = 0` emits exactly one
pair — the first matching one (the take-1 of the matching pairs) — rather
than the empty sequence, because the loop checks the limit only after a
matching pair has been pushed. -/
theorem c10_limit_zero_edge (s : MemoState) (query : Option String)
    (h : ∃ c ∈ descCmds s, matchedQ (query.map strLower) c = true) :
    list_cmds s 0 query = listSpec s 1 query ∧ (list_cmds s 0 query).length = 1 := by
  refine ⟨list_cmds_zero_eq s query, ?_⟩
  rw [list_cmds_zero_eq s query, listSpec, List.length_take]
  obtain ⟨c, hc, hm⟩ := h
  obtain ⟨i, hi⟩ := indexFrom_mem c (descCmds s) 1 hc
  have hmem : (i, c) ∈ (indexFrom 1 (descCmds s)).filter
      fun p => matchedQ (query.map strLower) p.2 :=
    List.mem_filter.mpr ⟨hi, hm⟩
  have hpos := List.length_pos.mpr (List.ne_nil_of_mem hmem)
  omega

/-- Witness for C10: a one-entry store with no filter. -/
theorem c10_limit_zero_edge_witness :
    (∃ c ∈ descCmds (insert_cmd initState "x" 0),
      matchedQ ((none : Option String).map strLower) c = true) ∧
    list_cmds (insert_cmd initState "x" 0) 0 none
      = listSpec (insert_cmd initState "x" 0) 1 none ∧
    (list_cmds (insert_cmd initState "x" 0) 0 none).length = 1 := by
  have h : ∃ c ∈ descCmds (insert_cmd initState "x" 0),
      matchedQ ((none : Option String).map strLower) c = true := ⟨"x", by decide, by decide⟩
  exact ⟨h, c10_limit_zero_edge (insert_cmd initState "x" 0) none h⟩

/-!
Claim C7.
-/

/-- C7 (confirmed).  Run gating: an executed command that is dangerous
implies the confirmation gate accepted; the gate accepts exactly a read line
whose trimmed, lowercased text is `y` or `yes` (any other input, EOF — an
empty read — or a read failure declines); a resolved dangerous command with
a declined gate ends in the `declined` terminal state, whose exit code is 1,
without executing; a resolved non-dangerous command is executed without
consulting the gate; an unresolved index ends in `notFound`. -/
theorem c7_run_gating (s : MemoState) (index : Nat) (input : Option String) (c : String) :
    (runBranch s index input = RunOutcome.executed c → is_dangerous c = true →
      confirmAccepts input = true) ∧
    (confirmAccepts input = true ↔ ∃ line, input = some line ∧
      (strLower (strTrim line) = "y" ∨ strLower (strTrim line) = "yes")) ∧
    (cmd_by_index s index = some c → is_dangerous c = true → confirmAccepts input = false →
      runBranch s index input = RunOutcome.declined ∧
        (∀ code, runExitCode (runBranch s index input) code = 1)) ∧
    (cmd_by_index s index = some c → is_dangerous c = false →
      runBranch s index input = RunOutcome.executed c) ∧
    (cmd_by_index s index = none → runBranch s index input = RunOutcome.notFound) := by
  refine ⟨?_, ?_, ?_, ?_, ?_⟩
  · intro hex hd
    by_cases hc : confirmAccepts input = true
    · exact hc
    · exfalso
      have hcf : confirmAccepts input = false := by
        revert hc
        cases confirmAccepts input <;> simp
      cases hcb : cmd_by_index s index with
      | none => simp [runBranch, hcb] at hex
      | some d =>
        simp only [runBranch, hcb, hcf, Bool.not_false, Bool.and_true] at hex
        split at hex
        · cases hex
        · next hdd =>
          have hdc := RunOutcome.executed.inj hex
          subst hdc
          exact hdd hd
  · cases input with
    | none => simp [confirmAccepts]
    | some line =>
      simp [confirmAccepts, Bool.or_eq_true, beq_iff_eq]
  · intro hcb hd hcf
    have hrb : runBranch s index input = RunOutcome.declined := by
      simp [runBranch, hcb, hd, hcf]
    exact ⟨hrb, fun code => by rw [hrb]; rfl⟩
  · intro hcb hd
    simp [runBranch, hcb, hd]
  · intro hcb
    simp [runBranch, hcb]

/-!
Helper lemmas about the danger classifier.
-/

lemma leadsList_iff : ∀ (w l : List Char), leadsList w l = true ↔ ∃ t, l = w ++ t := by
  intro w
  induction w with
  | nil => intro l; simp [leadsList]
  | cons a as ih =>
    intro l
    cases l with
    | nil => simp [leadsList]
    | cons b bs =>
      simp only [leadsList, Bool.and_eq_true, beq_iff_eq, ih bs]
      constructor
      · rintro ⟨hab, t, ht⟩
        subst hab
        exact ⟨t, by rw [ht]; rfl⟩
      · rintro ⟨t, ht⟩
        obtain ⟨h1, h2⟩ := List.cons.inj ht
        exact ⟨h1.symm, t, h2⟩

lemma getElem?_append_length {α : Type} (l₁ l₂ : List α) :
    (l₁ ++ l₂)[l₁.length]? = l₂[0]? := by
  rw [List.getElem?_append_right (le_refl l₁.length)]
  simp

lemma nonWordEdgeR_iff (B post : List Char) :
    noWordAt (B ++ post) B.length = true ↔ NonWordEdgeR post := by
  have h0 : (B ++ post)[B.length]? = post[0]? := getElem?_append_length B post
  cases post with
  | nil => simp [noWordAt, h0, NonWordEdgeR]
  | cons c p =>
    simp [noWordAt, h0, NonWordEdgeR, Bool.not_eq_true']

lemma matchStemAt_iff (w s : List Char) (hw : w ≠ []) (i : Nat) :
    matchStemAt w s i = true ↔
      ∃ pre post, s = pre ++ w ++ post ∧ pre.length = i ∧ NonWordEdgeL pre := by
  constructor
  · intro h
    simp only [matchStemAt, Bool.and_eq_true, Bool.or_eq_true, decide_eq_true_eq] at h
    obtain ⟨hlead, hbd⟩ := h
    obtain ⟨post, hpost⟩ := (leadsList_iff w (s.drop i)).mp hlead
    have hile : i ≤ s.length := by
      by_contra hgt
      push_neg at hgt
      rw [List.drop_eq_nil_of_le (le_of_lt hgt)] at hpost
      exact hw (List.append_eq_nil.mp hpost.symm).1
    refine ⟨s.take i, post, ?_, List.length_take_of_le hile, ?_⟩
    · conv_lhs => rw [← List.take_append_drop i s]
      rw [hpost, List.append_assoc]
    · by_cases hi : i = 0
      · left
        rw [hi, List.take_zero]
      · obtain ⟨j, rfl⟩ : ∃ j, i = j + 1 := ⟨i - 1, by omega⟩
        have hnw : noWordAt s j = true := by
          rcases hbd with h0 | hnw
          · exact absurd h0 hi
          · simpa using hnw
        have hj : j < s.length := by omega
        have hcj : s[j]? = some s[j] := List.getElem?_eq_getElem hj
        right
        refine ⟨s.take j, s[j], ?_, ?_⟩
        · rw [List.take_succ, hcj]
          rfl
        · have := hnw
          rw [noWordAt, hcj] at this
          simpa [Bool.not_eq_true'] using this
  · rintro ⟨pre, post, hs, hlen, hedge⟩
    subst hlen
    simp only [matchStemAt, Bool.and_eq_true, Bool.or_eq_true, decide_eq_true_eq]
    constructor
    · apply (leadsList_iff w (s.drop pre.length)).mpr
      refine ⟨post, ?_⟩
      rw [hs, List.append_assoc, List.drop_left]
    · cases hedge with
      | inl h => left; rw [h]; rfl
      | inr h =>
        obtain ⟨p, c, hp, hword⟩ := h
        right
        have hlen1 : pre.length - 1 = p.length := by rw [hp]; simp
        have hpos : s[p.length]? = some c := by
          rw [hs, hp, List.append_assoc, List.append_assoc, getElem?_append_length]
          simp
        rw [hlen1]
        simp [noWordAt, hpos, hword]

lemma matchesStem_iff (w s : List Char) (hw : w ≠ []) :
    matchesStem w s = true ↔ StemOccurs w s := by
  rw [matchesStem, List.any_eq_true]
  constructor
  · rintro ⟨i, hmem, hAt⟩
    obtain ⟨pre, post, hs, hlen, hL⟩ := (matchStemAt_iff w s hw i).mp hAt
    exact ⟨pre, post, hs, hL⟩
  · rintro ⟨pre, post, hs, hL⟩
    have hslen : s.length = pre.length + w.length + post.length := by
      rw [hs]
      simp [List.length_append]
      omega
    refine ⟨pre.length, List.mem_range.mpr (by omega), ?_⟩
    exact (matchStemAt_iff w s hw pre.length).mpr ⟨pre, post, hs, rfl, hL⟩

lemma matchWordAt_iff (w s : List Char) (hw : w ≠ []) (i : Nat) :
    matchWordAt w s i = true ↔
      ∃ pre post, s = pre ++ w ++ post ∧ pre.length = i ∧
        NonWordEdgeL pre ∧ NonWordEdgeR post := by
  have heq : matchWordAt w s i = (matchStemAt w s i && noWordAt s (i + w.length)) := rfl
  rw [heq, Bool.and_eq_true, matchStemAt_iff w s hw i]
  constructor
  · rintro ⟨⟨pre, post, hs, hlen, hL⟩, hR⟩
    refine ⟨pre, post, hs, hlen, hL, ?_⟩
    have hBlen : (pre ++ w).length = i + w.length := by
      simp [List.length_append, hlen]
    rw [hs, ← hBlen] at hR
    exact (nonWordEdgeR_iff (pre ++ w) post).mp hR
  · rintro ⟨pre, post, hs, hlen, hL, hR⟩
    refine ⟨⟨pre, post, hs, hlen, hL⟩, ?_⟩
    have hBlen : (pre ++ w).length = i + w.length := by
      simp [List.length_append, hlen]
    rw [hs, ← hBlen]
    exact (nonWordEdgeR_iff (pre ++ w) post).mpr hR

lemma matchesWord_iff (w s : List Char) (hw : w ≠ []) :
    matchesWord w s = true ↔ WordOccurs w s := by
  rw [matchesWord, List.any_eq_true]
  constructor
  · rintro ⟨i, hmem, hAt⟩
    obtain ⟨pre, post, hs, hlen, hL, hR⟩ := (matchWordAt_iff w s hw i).mp hAt
    exact ⟨pre, post, hs, hL, hR⟩
  · rintro ⟨pre, post, hs, hL, hR⟩
    have hslen : s.length = pre.length + w.length + post.length := by
      rw [hs]
      simp [List.length_append]
      omega
    refine ⟨pre.length, List.mem_range.mpr (by omega), ?_⟩
    exact (matchWordAt_iff w s hw pre.length).mpr ⟨pre, post, hs, rfl, hL, hR⟩

lemma matchesPipeSh_iff (s : List Char) : matchesPipeSh s = true ↔ PipeShOccurs s := by
  rw [matchesPipeSh, List.any_eq_true]
  constructor
  · rintro ⟨i, hmem, hcond⟩
    rw [Bool.and_eq_true] at hcond
    obtain ⟨hbar, hinner⟩ := hcond
    rw [beq_iff_eq] at hbar
    rw [List.any_eq_true] at hinner
    obtain ⟨j, hjmem, hj⟩ := hinner
    rw [Bool.and_eq_true, Bool.and_eq_true] at hj
    obtain ⟨⟨hws, hsh⟩, hbd⟩ := hj
    obtain ⟨hilt, hieq⟩ := List.getElem?_eq_some.mp hbar
    have hdropi : s.drop i = '|' :: s.drop (i + 1) := by
      rw [List.drop_eq_getElem_cons hilt, hieq]
    obtain ⟨post, hpost⟩ := (leadsList_iff ['s', 'h'] (s.drop (i + 1 + j))).mp hsh
    have hdd : (s.drop (i + 1)).drop j = s.drop (i + 1 + j) := by
      rw [List.drop_drop]
    have hjle : j ≤ (s.drop (i + 1)).length := by
      by_contra hgt
      push_neg at hgt
      have hnil : (s.drop (i + 1)).drop j = [] := List.drop_eq_nil_of_le (le_of_lt hgt)
      rw [hdd, hpost] at hnil
      simp at hnil
    have hwslen : ((s.drop (i + 1)).take j).length = j := by
      rw [List.length_take]
      omega
    have hs_decomp : s = s.take i ++ '|' :: ((s.drop (i + 1)).take j ++ 's' :: 'h' :: post) := by
      conv_lhs => rw [← List.take_append_drop i s]
      rw [hdropi]
      congr 2
      conv_lhs => rw [← List.take_append_drop j (s.drop (i + 1))]
      rw [hdd, hpost]
      rfl
    refine ⟨s.take i, (s.drop (i + 1)).take j, post, hs_decomp,
      fun c hc => (List.all_eq_true.mp hws) c hc, ?_⟩
    have hlenTake : (s.take i).length = i := List.length_take_of_le (le_of_lt hilt)
    have hB : s = (s.take i ++ '|' :: ((s.drop (i + 1)).take j ++ ['s', 'h'])) ++ post := by
      conv_lhs => rw [hs_decomp]
      simp
    have hBlen : (s.take i ++ '|' :: ((s.drop (i + 1)).take j ++ ['s', 'h'])).length
        = i + 1 + j + 2 := by
      simp only [List.length_append, List.length_cons, List.length_nil, hlenTake, hwslen]
      omega
    rw [hB, ← hBlen] at hbd
    exact (nonWordEdgeR_iff _ post).mp hbd
  · rintro ⟨pre, ws, post, hs, hspace, hR⟩
    have hslen : s.length = pre.length + 1 + ws.length + 2 + post.length := by
      rw [hs]
      simp only [List.length_append, List.length_cons, List.length_nil]
      omega
    refine ⟨pre.length, List.mem_range.mpr (by omega), ?_⟩
    rw [Bool.and_eq_true]
    constructor
    · rw [beq_iff_eq, hs, getElem?_append_length]
      simp
    · rw [List.any_eq_true]
      refine ⟨ws.length, List.mem_range.mpr (by omega), ?_⟩
      have hdrop1 : s.drop (pre.length + 1) = ws ++ 's' :: 'h' :: post := by
        rw [hs]
        have hsplit : pre ++ '|' :: (ws ++ 's' :: 'h' :: post)
            = (pre ++ ['|']) ++ (ws ++ 's' :: 'h' :: post) := by simp
        rw [hsplit]
        have hlen1 : (pre ++ ['|']).length = pre.length + 1 := by simp
        rw [← hlen1, List.drop_left]
      rw [Bool.and_eq_true, Bool.and_eq_true]
      refine ⟨⟨?_, ?_⟩, ?_⟩
      · rw [hdrop1, List.take_left]
        exact List.all_eq_true.mpr hspace
      · have hdrop2 : s.drop (pre.length + 1 + ws.length) = 's' :: 'h' :: post := by
          rw [← List.drop_drop, hdrop1, List.drop_left]
        rw [hdrop2]
        exact (leadsList_iff _ _).mpr ⟨post, rfl⟩
      · have hB : s = (pre ++ '|' :: (ws ++ ['s', 'h'])) ++ post := by
          rw [hs]
          simp
        have hBlen : (pre ++ '|' :: (ws ++ ['s', 'h'])).length
            = pre.length + 1 + ws.length + 2 := by
          simp only [List.length_append, List.length_cons, List.length_nil]
          omega
        rw [hB, ← hBlen]
        exact (nonWordEdgeR_iff _ post).mpr hR

/-!
Claim C6.
-/

/-- C6 (confirmed).  Danger classification: `is_dangerous cmd` holds exactly
when one of the fixed word-boundary patterns occurs in `cmd` — a standalone
`rm`, `sudo`, `dd`, a token starting with `mkfs`, standalone `shutdown`,
`reboot`, `poweroff`, or a pipe into `sh` — stated via the positional
decomposition `cmd = pre ++ word ++ post` with non-word characters (or the
string edge) at the boundaries.  The spec's examples hold:
`"rm -rf /tmp/x"` and `"echo rm"` are dangerous, `"harmless"` and `"germ"`
are not. -/
theorem c6_danger_classification :
    (∀ cmd : String, is_dangerous cmd = true ↔ DangerousSpec cmd) ∧
    is_dangerous "rm -rf /tmp/x" = true ∧
    is_dangerous "harmless" = false ∧
    is_dangerous "echo rm" = true ∧
    is_dangerous "germ" = false := by
  refine ⟨fun cmd => ?_, by decide, by decide, by decide, by decide⟩
  simp only [is_dangerous, Bool.or_eq_true, DangerousSpec]
  rw [matchesWord_iff "rm".data cmd.data (by decide),
    matchesWord_iff "sudo".data cmd.data (by decide),
    matchesWord_iff "dd".data cmd.data (by decide),
    matchesStem_iff "mkfs".data cmd.data (by decide),
    matchesWord_iff "shutdown".data cmd.data (by decide),
    matchesWord_iff "reboot".data cmd.data (by decide),
    matchesWord_iff "poweroff".data cmd.data (by decide),
    matchesPipeSh_iff cmd.data]
  tauto

/-- Witness for C7: a resolved dangerous command with input `"n"` is
declined with exit code 1. -/
theorem c7_run_gating_witness :
    cmd_by_index (insert_cmd initState "rm -rf /" 0) 1 = some "rm -rf /" ∧
    is_dangerous "rm -rf /" = true ∧
    confirmAccepts (some "n") = false ∧
    (runBranch (insert_cmd initState "rm -rf /" 0) 1 (some "n") = RunOutcome.declined ∧
      ∀ code, runExitCode (runBranch (insert_cmd initState "rm -rf /" 0) 1 (some "n")) code
        = 1) :=
  ⟨by decide, by decide, by decide,
    (c7_run_gating (insert_cmd initState "rm -rf /" 0) 1 (some "n") "rm -rf /").2.2.1
      (by decide) (by decide) (by decide)⟩
